import Mathlib

/-!
Verification of ttyplay2 (ObOlli's navigable ttyrec player).

The development shallowly embeds the relevant C functions of
`src/ttyplay2.c` (timeval arithmetic, the clear-screen indexer, the two
coarse-seek routines, the fine seek phase of `ttyplay`, the drift logic of
`ttywait`, the escape-sequence decoder, `jump_file`'s latency adjustment
and the record codec) as executable Lean definitions and proves or
refutes the specification claims about them.
-/

namespace Ttyplay2

/-! ## Timeval arithmetic (`timeval_diff`, `timeval_sub`, `timeval_add`) -/

/-- The C `struct timeval`: seconds and microseconds, both as mathematical
integers (the C `long` arithmetic never overflows in the ranges used). -/
structure Timeval where
  sec : Int
  usec : Int
deriving DecidableEq, Repr

/-- The C `timeval_diff tv1 tv2` returns `tv2 - tv1` with a single borrow,
exactly as the C code does. -/
def timeval_diff (tv1 tv2 : Timeval) : Timeval :=
  if tv2.usec - tv1.usec < 0 then
    ⟨tv2.sec - tv1.sec - 1, tv2.usec - tv1.usec + 1000000⟩
  else
    ⟨tv2.sec - tv1.sec, tv2.usec - tv1.usec⟩

/-- The C `timeval_sub tv1 tv2` returns `tv1 - tv2` with a single borrow. -/
def timeval_sub (tv1 tv2 : Timeval) : Timeval :=
  if tv1.usec - tv2.usec < 0 then
    ⟨tv1.sec - tv2.sec - 1, tv1.usec - tv2.usec + 1000000⟩
  else
    ⟨tv1.sec - tv2.sec, tv1.usec - tv2.usec⟩

/-- The C `timeval_add tv1 tv2` returns `tv1 + tv2`; note the C code carries
only when the microsecond sum is strictly greater than 1000000. -/
def timeval_add (tv1 tv2 : Timeval) : Timeval :=
  if 1000000 < tv1.usec + tv2.usec then
    ⟨tv1.sec + tv2.sec + 1, tv1.usec + tv2.usec - 1000000⟩
  else
    ⟨tv1.sec + tv2.sec, tv1.usec + tv2.usec⟩

/-- The value of a timeval in microseconds. -/
def tval (t : Timeval) : Int := t.sec * 1000000 + t.usec

/-- The microsecond field is in `[0, 1000000)`. -/
def Normed (t : Timeval) : Prop := 0 ≤ t.usec ∧ t.usec < 1000000

/-- The microsecond field is in `[0, 1000000]`; `timeval_add` can leave
the boundary value 1000000 in place. -/
def WeakNormed (t : Timeval) : Prop := 0 ≤ t.usec ∧ t.usec ≤ 1000000

instance (t : Timeval) : Decidable (Normed t) :=
  inferInstanceAs (Decidable (_ ∧ _))

instance (t : Timeval) : Decidable (WeakNormed t) :=
  inferInstanceAs (Decidable (_ ∧ _))

theorem Normed.weak {t : Timeval} (h : Normed t) : WeakNormed t :=
  ⟨h.1, le_of_lt h.2⟩

theorem tval_timeval_diff (a b : Timeval) :
    tval (timeval_diff a b) = tval b - tval a := by
  unfold timeval_diff tval
  split <;> ring

theorem tval_timeval_sub (a b : Timeval) :
    tval (timeval_sub a b) = tval a - tval b := by
  unfold timeval_sub tval
  split <;> ring

theorem tval_timeval_add (a b : Timeval) :
    tval (timeval_add a b) = tval a + tval b := by
  unfold timeval_add tval
  split <;> ring

theorem normed_timeval_diff {a b : Timeval} (ha : Normed a) (hb : Normed b) :
    Normed (timeval_diff a b) := by
  obtain ⟨ha1, ha2⟩ := ha
  obtain ⟨hb1, hb2⟩ := hb
  unfold timeval_diff Normed
  split <;> constructor <;> simp <;> omega

theorem normed_timeval_sub {a b : Timeval} (ha : Normed a) (hb : Normed b) :
    Normed (timeval_sub a b) := by
  obtain ⟨ha1, ha2⟩ := ha
  obtain ⟨hb1, hb2⟩ := hb
  unfold timeval_sub Normed
  split <;> constructor <;> simp <;> omega

theorem weaknormed_timeval_add {a b : Timeval}
    (ha : WeakNormed a) (hb : Normed b) : WeakNormed (timeval_add a b) := by
  obtain ⟨ha1, ha2⟩ := ha
  obtain ⟨hb1, hb2⟩ := hb
  unfold timeval_add WeakNormed
  split <;> constructor <;> simp <;> omega

/-- For a normalized `a` and weakly normalized `b`, the C sign test
`timeval_sub(a,b).tv_sec < 0` decides the exact comparison `a < b`. -/
theorem timeval_sub_sec_neg_iff {a b : Timeval}
    (ha : Normed a) (hb : WeakNormed b) :
    (timeval_sub a b).sec < 0 ↔ tval a < tval b := by
  obtain ⟨ha1, ha2⟩ := ha
  obtain ⟨hb1, hb2⟩ := hb
  unfold timeval_sub tval
  split <;> simp <;> omega

/-- For normalized operands, the C sign test
`0 ≤ timeval_diff(a,b).tv_sec` decides the exact comparison `a ≤ b`. -/
theorem timeval_diff_sec_nonneg_iff {a b : Timeval}
    (ha : Normed a) (hb : Normed b) :
    0 ≤ (timeval_diff a b).sec ↔ tval a ≤ tval b := by
  obtain ⟨ha1, ha2⟩ := ha
  obtain ⟨hb1, hb2⟩ := hb
  unfold timeval_diff tval
  split <;> simp <;> omega

/-- C5 counterexample: adding `0.5 s` to `0.5 s` leaves the microsecond
field at exactly 1000000, outside the claimed range `[0, 1000000)`,
because `timeval_add` carries only on a strict `>` comparison. -/
theorem c5_add_not_normalized :
    timeval_add ⟨0, 500000⟩ ⟨0, 500000⟩ = ⟨0, 1000000⟩ ∧
    ¬ (timeval_add ⟨0, 500000⟩ ⟨0, 500000⟩).usec < 1000000 := by
  constructor
  · rfl
  · decide

/-- C5 (amended): for inputs with microseconds in `[0, 1000000)`,
`timeval_sub` returns the exact difference with the microsecond field
normalized into `[0, 1000000)`, and `timeval_add` returns the exact sum
with the microsecond field in `[0, 1000000]`; the unnormalized boundary
value 1000000 remains exactly when the operands' microseconds sum to
1000000. -/
theorem c5_timeval_arith (a b : Timeval) (ha : Normed a) (hb : Normed b) :
    tval (timeval_sub a b) = tval a - tval b ∧
    Normed (timeval_sub a b) ∧
    tval (timeval_add a b) = tval a + tval b ∧
    (0 ≤ (timeval_add a b).usec ∧ (timeval_add a b).usec ≤ 1000000) ∧
    ((timeval_add a b).usec = 1000000 ↔ a.usec + b.usec = 1000000) := by
  refine ⟨tval_timeval_sub a b, normed_timeval_sub ha hb,
    tval_timeval_add a b, weaknormed_timeval_add ha.weak hb, ?_⟩
  obtain ⟨ha1, ha2⟩ := ha
  obtain ⟨hb1, hb2⟩ := hb
  unfold timeval_add
  split <;> simp <;> omega

/-- Witness for C5's amended theorem at concrete inputs whose
microseconds sum to exactly 1000000. -/
theorem c5_timeval_arith_witness :
    Normed ⟨1, 250000⟩ ∧ Normed ⟨2, 750000⟩ ∧
    ((timeval_add ⟨1, 250000⟩ ⟨2, 750000⟩).usec = 1000000 ↔
      (250000 : Int) + 750000 = 1000000) :=
  ⟨by decide, by decide,
    (c5_timeval_arith ⟨1, 250000⟩ ⟨2, 750000⟩ (by decide) (by decide)).2.2.2.2⟩

/-! ## Helper sign lemmas for normalized timevals -/

theorem normed_sec_neg_iff {t : Timeval} (h : Normed t) :
    t.sec < 0 ↔ tval t < 0 := by
  obtain ⟨h1, h2⟩ := h
  unfold tval
  omega

theorem normed_zero_iff {t : Timeval} (h : Normed t) :
    t.sec = 0 ∧ t.usec = 0 ↔ tval t = 0 := by
  obtain ⟨h1, h2⟩ := h
  unfold tval
  omega

/-! ## The escape-sequence decoder of `ttywait` (C8)

`ttywait` reads a byte `c2` after ESC and, for `c2 = 'O'` or `c2 = '['`,
a further byte `c3`; the nested switch updates `status.seek_request.tv_sec`
by `speed * ±JUMPBASE * JUMP_SCALE^k`.  The C expression adds a `double`
to a `long`, truncating the result toward zero; `speed` is modelled as an
exact rational (the C doubles are exact for all reachable speeds). -/

/-- C's `double`-to-`long` conversion: truncation toward zero. -/
def ratTrunc (q : ℚ) : Int := if q < 0 then -(Int.floor (-q)) else Int.floor q

/-- The update `status.seek_request.tv_sec += amount` where `amount` is a double. -/
def addTruncSec (s : Int) (q : ℚ) : Int := ratTrunc ((s : ℚ) + q)

/-- Outcome of one ESC sequence in `ttywait`. -/
inductive EscEffect where
  | seek (newSeekSec : Int)
  | home
  | seekEndWallclock
  | ignored
deriving DecidableEq, Repr

/-- The nested `switch (c2) / switch (c3)` of `ttywait` (the `case '\033'`
branch), with `JUMPBASE = 15` and `JUMP_SCALE = 10` folded in.  Note that
the `'['` branch handles only `'5'` and `'6'`; arrow finals A/B/C/D are
handled only under `'O'`. -/
def esc_decode (c2 c3 : Nat) (speed : ℚ) (seekSec : Int) : EscEffect :=
  if c2 = 79 then          -- 'O'
    if c3 = 68 then .seek (addTruncSec seekSec (speed * (-15)))         -- 'D'
    else if c3 = 67 then .seek (addTruncSec seekSec (speed * 15))       -- 'C'
    else if c3 = 65 then .seek (addTruncSec seekSec (speed * (-15) * 10)) -- 'A'
    else if c3 = 66 then .seek (addTruncSec seekSec (speed * 15 * 10))  -- 'B'
    else if c3 = 72 then .home                                          -- 'H'
    else if c3 = 70 then .seekEndWallclock                              -- 'F'
    else .ignored
  else if c2 = 91 then     -- '['
    if c3 = 53 then .seek (addTruncSec seekSec (speed * (-15) * 10 * 10))  -- '5'
    else if c3 = 54 then .seek (addTruncSec seekSec (speed * 15 * 10 * 10)) -- '6'
    else .ignored
  else .ignored

theorem ratTrunc_intCast (m : Int) : ratTrunc (m : ℚ) = m := by
  unfold ratTrunc
  split
  · rw [show (-(m : ℚ)) = ((-m : Int) : ℚ) by push_cast; ring, Int.floor_intCast]
    ring
  · exact Int.floor_intCast m

theorem addTruncSec_intCast (s m : Int) : addTruncSec s (m : ℚ) = s + m := by
  unfold addTruncSec
  rw [show ((s : ℚ) + (m : ℚ)) = ((s + m : Int) : ℚ) by push_cast; ring]
  exact ratTrunc_intCast (s + m)

/-- C8 counterexample: the decoder ignores `ESC [ D` (the CSI arrow
encoding); at speed 1 with no pending seek it leaves the request
unchanged instead of adding `-JUMPBASE * speed = -15`. -/
theorem c8_csi_arrow_ignored :
    esc_decode 91 68 1 0 = EscEffect.ignored ∧
    esc_decode 91 68 1 0 ≠ EscEffect.seek (-15) := by
  constructor
  · rfl
  · intro h
    simpa [esc_decode] using h

/-- C8 (amended): only the `ESC O` encodings of the arrow finals are
accepted, adding `±JUMPBASE·speed` for D/C and `±JUMPBASE·JUMP_SCALE·speed`
for A/B (`JUMPBASE = 15`, `JUMP_SCALE = 10`); `ESC [` is accepted only
with finals `5`/`6` (`±JUMPBASE·JUMP_SCALE²·speed`), and `ESC [` followed
by A/B/C/D is silently ignored.  Stated for integer-valued speeds, for
which the double arithmetic is exact. -/
theorem c8_arrow_decode (n s : Int) :
    esc_decode 79 68 (n : ℚ) s = EscEffect.seek (s - 15 * n) ∧
    esc_decode 79 67 (n : ℚ) s = EscEffect.seek (s + 15 * n) ∧
    esc_decode 79 65 (n : ℚ) s = EscEffect.seek (s - 150 * n) ∧
    esc_decode 79 66 (n : ℚ) s = EscEffect.seek (s + 150 * n) ∧
    esc_decode 91 53 (n : ℚ) s = EscEffect.seek (s - 1500 * n) ∧
    esc_decode 91 54 (n : ℚ) s = EscEffect.seek (s + 1500 * n) ∧
    esc_decode 91 65 (n : ℚ) s = EscEffect.ignored ∧
    esc_decode 91 66 (n : ℚ) s = EscEffect.ignored ∧
    esc_decode 91 67 (n : ℚ) s = EscEffect.ignored ∧
    esc_decode 91 68 (n : ℚ) s = EscEffect.ignored := by
  have hD : ((n : ℚ) * (-15)) = (((-15) * n : Int) : ℚ) := by push_cast; ring
  have hC : ((n : ℚ) * 15) = ((15 * n : Int) : ℚ) := by push_cast; ring
  have hA : ((n : ℚ) * (-15) * 10) = (((-150) * n : Int) : ℚ) := by
    push_cast; ring
  have hB : ((n : ℚ) * 15 * 10) = ((150 * n : Int) : ℚ) := by push_cast; ring
  have h5 : ((n : ℚ) * (-15) * 10 * 10) = (((-1500) * n : Int) : ℚ) := by
    push_cast; ring
  have h6 : ((n : ℚ) * 15 * 10 * 10) = ((1500 * n : Int) : ℚ) := by
    push_cast; ring
  refine ⟨?_, ?_, ?_, ?_, ?_, ?_, by simp [esc_decode], by simp [esc_decode],
    by simp [esc_decode], by simp [esc_decode]⟩
  · simp only [esc_decode, hD, addTruncSec_intCast]
    norm_num
    try ring
  · simp only [esc_decode, hC, addTruncSec_intCast]
    norm_num
    try ring
  · simp only [esc_decode, hA, addTruncSec_intCast]
    norm_num
    try ring
  · simp only [esc_decode, hB, addTruncSec_intCast]
    norm_num
    try ring
  · simp only [esc_decode, h5, addTruncSec_intCast]
    norm_num
    try ring
  · simp only [esc_decode, h6, addTruncSec_intCast]
    norm_num
    try ring

/-! ## ttywait drift handling (C7)

The drift logic of `ttywait` (the 4-argument variant): the effective
timeout is `diff = clamp₀(scaled - drift)` where `scaled` is the
speed-scaled inter-record delta (`timeval_div(cur - prev, |speed|)`,
passed here as a parameter since its floating-point division is
irrelevant to drift bookkeeping).  On user input the static `drift` is
zeroed only inside the `case '\033':` branch; every other byte leaves it
untouched.  Without input, `drift` becomes
`timeval_diff(diff, stop - start)`, i.e. actual elapsed minus requested
(with `diff` first replaced by `0 - drift` when it was zero). -/

/-- Drift update of `ttywait`: `input = some c` models `select` being
interrupted by byte `c`; `input = none` models an uninterrupted wait
whose measured wall-clock span is `span` (`stop - start`). -/
def ttywait_drift (drift scaled : Timeval) (input : Option Int)
    (span : Timeval) : Timeval :=
  let d0 := timeval_diff drift scaled
  let diff := if d0.sec < 0 then (⟨0, 0⟩ : Timeval) else d0
  match input with
  | some c => if c = 27 then ⟨0, 0⟩ else drift
  | none =>
      let diff2 :=
        if diff.sec = 0 ∧ diff.usec = 0 then timeval_diff drift ⟨0, 0⟩
        else diff
      timeval_diff diff2 span

/-- C7 counterexample: the byte `'+'` (43) interrupts the wait but does
not reset the accumulated drift of 5 seconds; only the `ESC` branch
clears it. -/
theorem c7_plus_keeps_drift :
    ttywait_drift ⟨5, 0⟩ ⟨2, 0⟩ (some 43) ⟨1, 0⟩ = ⟨5, 0⟩ ∧
    ttywait_drift ⟨5, 0⟩ ⟨2, 0⟩ (some 43) ⟨1, 0⟩ ≠ ⟨0, 0⟩ := by
  constructor
  · rfl
  · decide

/-- C7 (amended): an interrupting byte resets drift to zero exactly when
it is `ESC` (27); any other byte (`+ - 1 p q f d x` and unknown bytes)
leaves drift unchanged.  When the wait completes without input, the new
drift is the measured span minus the effective (clamped) timeout — the
sign is actual-minus-requested: `span - (scaled - drift)` when
`drift < scaled`, and `span + drift` when the effective timeout clamps
to zero. -/
theorem c7_drift_update (drift scaled span : Timeval) (c : Int)
    (hd : Normed drift) (hs : Normed scaled) :
    ttywait_drift drift scaled (some 27) span = ⟨0, 0⟩ ∧
    (c ≠ 27 → ttywait_drift drift scaled (some c) span = drift) ∧
    (tval scaled ≤ tval drift →
      tval (ttywait_drift drift scaled none span) = tval span + tval drift) ∧
    (tval drift < tval scaled →
      tval (ttywait_drift drift scaled none span) =
        tval span - (tval scaled - tval drift)) := by
  have hnd : Normed (timeval_diff drift scaled) := normed_timeval_diff hd hs
  have hvd : tval (timeval_diff drift scaled) = tval scaled - tval drift :=
    tval_timeval_diff drift scaled
  refine ⟨by simp [ttywait_drift], fun hc => by simp [ttywait_drift, hc],
    fun hle => ?_, fun hlt => ?_⟩
  · -- effective timeout clamps to (or equals) zero; drift := span + drift
    unfold ttywait_drift
    rcases lt_or_eq_of_le hle with hlt' | heq
    · have hneg : (timeval_diff drift scaled).sec < 0 :=
        (normed_sec_neg_iff hnd).2 (by omega)
      simp only [hneg, if_pos, if_true]
      simp only [show ((⟨0, 0⟩ : Timeval).sec = 0 ∧
        (⟨0, 0⟩ : Timeval).usec = 0) from ⟨rfl, rfl⟩, if_pos, and_self]
      rw [tval_timeval_diff, tval_timeval_diff]
      unfold tval
      ring
    · have hz : tval (timeval_diff drift scaled) = 0 := by omega
      have hzz : (timeval_diff drift scaled).sec = 0 ∧
          (timeval_diff drift scaled).usec = 0 := (normed_zero_iff hnd).2 hz
      have hns : ¬ (timeval_diff drift scaled).sec < 0 := by omega
      simp only [hns, ite_false]
      rw [if_pos hzz, tval_timeval_diff, tval_timeval_diff]
      unfold tval
      ring
  · -- effective timeout is positive; drift := span - (scaled - drift)
    unfold ttywait_drift
    have hns : ¬ (timeval_diff drift scaled).sec < 0 := by
      rw [normed_sec_neg_iff hnd]; omega
    have hnz : ¬ ((timeval_diff drift scaled).sec = 0 ∧
        (timeval_diff drift scaled).usec = 0) := by
      rw [normed_zero_iff hnd]; omega
    simp only [hns, ite_false, hnz, if_false]
    rw [tval_timeval_diff]
    omega

/-- Witness for C7's amended theorem at concrete inputs. -/
theorem c7_drift_update_witness :
    ((43 : Int) ≠ 27 →
      ttywait_drift ⟨1, 100⟩ ⟨0, 50⟩ (some 43) ⟨2, 0⟩ = ⟨1, 100⟩) ∧
    (tval ⟨0, 50⟩ ≤ tval ⟨1, 100⟩ →
      tval (ttywait_drift ⟨1, 100⟩ ⟨0, 50⟩ none ⟨2, 0⟩) =
        tval ⟨2, 0⟩ + tval ⟨1, 100⟩) :=
  ⟨(c7_drift_update ⟨1, 100⟩ ⟨0, 50⟩ ⟨2, 0⟩ 43 (by decide) (by decide)).2.1,
    (c7_drift_update ⟨1, 100⟩ ⟨0, 50⟩ ⟨2, 0⟩ 43 (by decide) (by decide)).2.2.1⟩

/-! ## jump_file's switch-latency adjustment (C4)

`jump_file(direction)` with `direction < 0` first increments the request
(one less backwards), then compares
`timeval_sub(status.time_elapsed, current_fileid->last_clrscr->time_elapsed_cls).tv_sec - SWITCH_LATENCY`
with zero and decrements again when negative.  The subtrahend is the
elapsed time at the END of the current file (its last clear-screen entry
carries the end-of-file or next-file cumulative time), not its start, so
the test compares a non-positive quantity against the 10-second latency. -/

/-- The direction adjustment of `jump_file` (the 1229 variant) for a
requested jump: result `0` means "restart current file", `-1` means
"previous file", etc.; `time_elapsed` is the player's elapsed time and
`lastClsTime` the current file's `last_clrscr->time_elapsed_cls`. -/
def jump_file_direction (direction : Int)
    (time_elapsed lastClsTime : Timeval) : Int :=
  if direction < 0 then
    if (timeval_sub time_elapsed lastClsTime).sec - 10 < 0 then
      direction + 1 - 1
    else direction + 1
  else direction

/-- C4 code bug, evaluated at the failing input: the current file spans
elapsed times `[0 s, 100 s)` (so its end-of-file time is 100 s) and 50
seconds of it have been consumed — ten times the 10-second switch
latency — yet a previous-file request (`jump_file(-1)`) still resolves
to the previous file (direction −1) instead of restarting the current
file (direction 0), because the code subtracts the file's end time. -/
theorem c4_jump_file_bug :
    10 * 1000000 ≤ tval ⟨50, 0⟩ - tval ⟨0, 0⟩ ∧
    jump_file_direction (-1) ⟨50, 0⟩ ⟨100, 0⟩ = -1 ∧
    jump_file_direction (-1) ⟨50, 0⟩ ⟨100, 0⟩ ≠ 0 := by
  refine ⟨by decide, by decide, by decide⟩

/-! ## Record codec (C6) -/

/-- Little-endian 32-bit value from four bytes. -/
def leNat (a b c d : Nat) : Nat := a + 256 * (b + 256 * (c + 256 * d))

/-- An on-disk record header. -/
structure HeaderM where
  tv : Timeval
  len : Nat
deriving DecidableEq, Repr

/-- Modelled from the spec: `read_header` lives in `io.c`, which is not
among the sources here; per the spec the header is 12 bytes — seconds,
microseconds and payload length, each unsigned 32-bit little-endian —
and the read reports end-of-stream when fewer than 12 bytes remain. -/
def read_header : List Nat → Option (HeaderM × List Nat)
  | s0 :: s1 :: s2 :: s3 :: u0 :: u1 :: u2 :: u3 ::
      l0 :: l1 :: l2 :: l3 :: rest =>
    some (⟨⟨(leNat s0 s1 s2 s3 : Int), (leNat u0 u1 u2 u3 : Int)⟩,
      leNat l0 l1 l2 l3⟩, rest)
  | _ => none

/-- The function `ttyread` (the 1527 variant): reads a header, then `malloc`s and
`fread`s the declared payload length with no size check at all; even a
short `fread` only `perror`s and the function still returns 1. -/
def ttyread (bytes : List Nat) : Option (HeaderM × List Nat × List Nat) :=
  match read_header bytes with
  | none => none
  | some (h, rest) => some (h, rest.take h.len, rest.drop h.len)

/-- A stream holding one record whose header declares a 9000-byte
payload (9000 = 40 + 256 * 35), followed by those 9000 bytes. -/
def bigRecord : List Nat :=
  [0, 0, 0, 0, 0, 0, 0, 0, 40, 35, 0, 0] ++ List.replicate 9000 7

/-! ## The clear-screen indexer (C3, C6, C9, C10) -/

/-- The clear-screen marker `ESC [ 2 J` (`1B 5B 32 4A`). -/
def clrscrMarker : List Nat := [27, 91, 50, 74]

/-- The C string seen by `strstr`: the payload truncated at its first
NUL byte (`buf[bytes_read] = 0` terminates the buffer). -/
def cstr (l : List Nat) : List Nat := l.takeWhile (fun b => b != 0)

/-- First match position of the marker, as `strstr` computes it. -/
def strstr_pos (hay : List Nat) : Option Nat :=
  (List.range hay.length).find? (fun i => clrscrMarker.isPrefixOf (hay.drop i))

/-- The indexer's per-record scan: `strstr(buf, CLRSCR)` on the
NUL-terminated buffer. -/
def scanPayload (payload : List Nat) : Option Nat := strstr_pos (cstr payload)

/-- A record as the indexer sees it after `read_header` and `fread`. -/
structure RawRec where
  tv : Timeval
  len : Nat
  payload : List Nat
deriving DecidableEq, Repr

/-- A finished clear-screen index entry (`Clrscr_ID` without links). -/
structure ClsEntry where
  record_start : Int
  position : Int
  time_elapsed_cls : Timeval
deriving DecidableEq, Repr

/-- A just-created entry whose `time_elapsed_cls` has not been stamped
yet: the code stamps an entry only when the NEXT entry appears (with the
cumulative time of the next entry's record), or at end of file. -/
structure PendEntry where
  record_start : Int
  position : Int
deriving DecidableEq, Repr

/-- Loop state of `index_one_file`: `pos` is `ftell`, `prevTv` the saved
`prev_header.tv`, `whence` the running cumulative time, `pending` the
yet-unstamped newest entry, `finished` the stamped entries in order. -/
structure IdxState where
  pos : Int
  prevTv : Timeval
  whence : Timeval
  pending : Option PendEntry
  finished : List ClsEntry
deriving DecidableEq, Repr

/-- One loop iteration of `index_one_file` (the 980 variant, first input
file, so `file_id->prev == NULL`): the length check against
`BUFSIZE = 8192`, the `prev_header.tv.tv_sec == 0` first-record
sentinel, time accumulation, the `strstr` scan, and the delayed stamping
of the previous entry's `time_elapsed_cls`. -/
def index_step (st : IdxState) (r : RawRec) : Except Unit IdxState :=
  if 8192 < r.len then Except.error ()
  else
    let prev := if st.prevTv.sec = 0 then r.tv else st.prevTv
    let whence := timeval_add st.whence (timeval_sub r.tv prev)
    let pos' := st.pos + 12 + (r.len : Int)
    match scanPayload r.payload with
    | none =>
        Except.ok ⟨pos', r.tv, whence, st.pending, st.finished⟩
    | some p =>
        let newPend : PendEntry := ⟨st.pos, st.pos + 12 + (p : Int)⟩
        match st.pending with
        | none => Except.ok ⟨pos', r.tv, whence, some newPend, st.finished⟩
        | some pe =>
            Except.ok ⟨pos', r.tv, whence, some newPend,
              st.finished ++ [⟨pe.record_start, pe.position, whence⟩]⟩

/-- The indexer's main loop over the record stream. -/
def index_run : IdxState → List RawRec → Except Unit IdxState
  | st, [] => Except.ok st
  | st, r :: rs =>
    match index_step st r with
    | Except.error e => Except.error e
    | Except.ok st1 => index_run st1 rs

/-- End-of-file stamping: the pending (last) entry receives the final
cumulative time (`cur_clrscr->time_elapsed_cls = whence` after the
loop). -/
def index_finish (st : IdxState) : List ClsEntry :=
  match st.pending with
  | none => st.finished
  | some pe => st.finished ++ [⟨pe.record_start, pe.position, st.whence⟩]

/-- The function `index_one_file` for the first input file: start at offset 0 with
zero cumulative time, run over all records, stamp the last entry with
the end-of-file time, and return the entries and the file's elapsed
time. -/
def index_one_file (records : List RawRec) :
    Except Unit (List ClsEntry × Timeval) :=
  match index_run ⟨0, ⟨0, 0⟩, ⟨0, 0⟩, none, []⟩ records with
  | Except.error e => Except.error e
  | Except.ok st => Except.ok (index_finish st, st.whence)

/-- The specification's cumulative elapsed time at record `i`: the sum of
the inter-record timestamp deltas from the first record (which
contributes zero) up to record `i`, in microseconds. -/
def spec_elapsed_at (rs : List RawRec) (i : Nat) : Int :=
  (List.range i).foldl
    (fun acc j =>
      acc + (tval ((rs.getD (j + 1) ⟨⟨0, 0⟩, 0, []⟩).tv) -
             tval ((rs.getD j ⟨⟨0, 0⟩, 0, []⟩).tv)))
    0

/-- Spec-side reformulation used by the amended C3: a direct scan that
records the cumulative (sentinel-adjusted) elapsed time at every
marker-bearing record and returns the final cumulative time. -/
def sentinel_scan : Timeval → Timeval → List RawRec → List Timeval × Timeval
  | _, whence, [] => ([], whence)
  | prevTv, whence, r :: rs =>
    let prev := if prevTv.sec = 0 then r.tv else prevTv
    let whence1 := timeval_add whence (timeval_sub r.tv prev)
    let rec1 := sentinel_scan r.tv whence1 rs
    if (scanPayload r.payload).isSome then (whence1 :: rec1.1, rec1.2)
    else rec1

/-- The stamps the remaining entries receive, as a function of whether
an entry is already pending and of the scan of the remaining records:
with a pending entry, the marker times themselves followed by the final
time; without one, the marker times shifted by one followed by the final
time (if there is any marker at all). -/
def stampsSpec (pendingNow : Bool) (sc : List Timeval × Timeval) :
    List Timeval :=
  if pendingNow then sc.1 ++ [sc.2]
  else sc.1.drop 1 ++ (if sc.1.isEmpty then [] else [sc.2])

/-- Three records at 10 s, 11 s (clear-screen) and 13 s (clear-screen):
demonstration input for C3. -/
def demoRecs : List RawRec :=
  [⟨⟨10, 0⟩, 2, [65, 66]⟩,
   ⟨⟨11, 0⟩, 4, [27, 91, 50, 74]⟩,
   ⟨⟨13, 0⟩, 5, [27, 91, 50, 74, 88]⟩]

/-- C3 counterexample: on three records at 10 s, 11 s (marker) and 13 s
(marker), the entry for the 11 s record is stamped 3 s — the cumulative
elapsed time at the NEXT marker record — while the specification's
cumulative elapsed time at its own record is 1 s. -/
theorem c3_stamp_is_not_entry_elapsed :
    index_one_file demoRecs =
      Except.ok ([⟨14, 26, ⟨3, 0⟩⟩, ⟨30, 42, ⟨3, 0⟩⟩], ⟨3, 0⟩) ∧
    spec_elapsed_at demoRecs 1 = 1000000 ∧
    tval (⟨3, 0⟩ : Timeval) ≠ 1000000 := by
  refine ⟨by rfl, by decide, by decide⟩

/-- Main loop invariant for the amended C3: running the indexer from any
state appends, to the already-stamped entries, exactly the marker times
shifted by one position (each entry receives the cumulative time of the
next marker record) with the final cumulative time closing the list; and
the final `whence` is the scan's final cumulative time. -/
theorem index_run_stamps (rs : List RawRec) :
    ∀ (st st1 : IdxState), index_run st rs = Except.ok st1 →
      (index_finish st1).map (fun e => e.time_elapsed_cls) =
        st.finished.map (fun e => e.time_elapsed_cls) ++
          stampsSpec st.pending.isSome
            (sentinel_scan st.prevTv st.whence rs) ∧
      st1.whence = (sentinel_scan st.prevTv st.whence rs).2 := by
  induction rs with
  | nil =>
    intro st st1 h
    simp only [index_run] at h
    cases h
    constructor
    · cases hp : st.pending with
      | none => simp [index_finish, hp, stampsSpec, sentinel_scan]
      | some pe => simp [index_finish, hp, stampsSpec, sentinel_scan]
    · simp [sentinel_scan]
  | cons r rs ih =>
    intro st st1 h
    simp only [index_run] at h
    by_cases hlen : 8192 < r.len
    · rw [show index_step st r = Except.error () from by
        simp [index_step, hlen]] at h
      exact absurd h (by simp)
    · cases hscan : scanPayload r.payload with
      | none =>
        rw [show index_step st r = Except.ok
            ⟨st.pos + 12 + (r.len : Int), r.tv,
              timeval_add st.whence (timeval_sub r.tv
                (if st.prevTv.sec = 0 then r.tv else st.prevTv)),
              st.pending, st.finished⟩ from by
          simp [index_step, hlen, hscan]] at h
        obtain ⟨h1, h2⟩ := ih _ _ h
        simp only [sentinel_scan, hscan, Option.isSome_none, Bool.false_eq_true,
          if_false] at h1 h2 ⊢
        exact ⟨h1, h2⟩
      | some p =>
        cases hp : st.pending with
        | none =>
          rw [show index_step st r = Except.ok
              ⟨st.pos + 12 + (r.len : Int), r.tv,
                timeval_add st.whence (timeval_sub r.tv
                  (if st.prevTv.sec = 0 then r.tv else st.prevTv)),
                some ⟨st.pos, st.pos + 12 + (p : Int)⟩, st.finished⟩ from by
            simp [index_step, hlen, hscan, hp]] at h
          obtain ⟨h1, h2⟩ := ih _ _ h
          simp only [Option.isSome_some] at h1
          simp only [sentinel_scan, hscan, Option.isSome_some, hp,
            Option.isSome_none, if_true] at h1 h2 ⊢
          constructor
          · rw [h1]
            simp [stampsSpec]
          · exact h2
        | some pe =>
          rw [show index_step st r = Except.ok
              ⟨st.pos + 12 + (r.len : Int), r.tv,
                timeval_add st.whence (timeval_sub r.tv
                  (if st.prevTv.sec = 0 then r.tv else st.prevTv)),
                some ⟨st.pos, st.pos + 12 + (p : Int)⟩,
                st.finished ++ [⟨pe.record_start, pe.position,
                  timeval_add st.whence (timeval_sub r.tv
                    (if st.prevTv.sec = 0 then r.tv else st.prevTv))⟩]⟩ from by
            simp [index_step, hlen, hscan, hp]] at h
          obtain ⟨h1, h2⟩ := ih _ _ h
          simp only [Option.isSome_some] at h1
          simp only [sentinel_scan, hscan, Option.isSome_some, hp, if_true]
            at h1 h2 ⊢
          constructor
          · rw [h1]
            simp [stampsSpec]
          · exact h2

/-- C3 (amended): `time_elapsed_cls` is stamped with the cumulative
elapsed time at the NEXT clear-screen record — the last entry receiving
the end-of-file cumulative time — rather than the elapsed time at the
entry's own record; the `t = 0, 1, 2` example of the claim nevertheless
yields `elapsed_at_entry = 1` for its unique entry, because the
`tv_sec == 0` sentinel also swallows the 0 → 1 delta there. -/
theorem c3_delayed_stamping (rs : List RawRec) (entries : List ClsEntry)
    (fin : Timeval) (h : index_one_file rs = Except.ok (entries, fin)) :
    entries.map (fun e => e.time_elapsed_cls) =
      stampsSpec false (sentinel_scan ⟨0, 0⟩ ⟨0, 0⟩ rs) ∧
    fin = (sentinel_scan ⟨0, 0⟩ ⟨0, 0⟩ rs).2 ∧
    index_one_file
      [⟨⟨0, 0⟩, 2, [104, 105]⟩,
       ⟨⟨1, 0⟩, 7, [27, 91, 50, 74, 99, 108, 115]⟩,
       ⟨⟨2, 0⟩, 3, [101, 110, 100]⟩] =
      Except.ok ([⟨14, 26, ⟨1, 0⟩⟩], ⟨1, 0⟩) := by
  unfold index_one_file at h
  cases hrun : index_run ⟨0, ⟨0, 0⟩, ⟨0, 0⟩, none, []⟩ rs with
  | error e => rw [hrun] at h; exact absurd h (by simp)
  | ok st =>
    rw [hrun] at h
    obtain ⟨h1, h2⟩ := index_run_stamps rs _ _ hrun
    simp only [Except.ok.injEq, Prod.mk.injEq] at h
    obtain ⟨he, hf⟩ := h
    refine ⟨?_, ?_, by rfl⟩
    · rw [← he]
      simpa using h1
    · rw [← hf]
      exact h2

/-- Witness for C3's amended theorem at the three-record demonstration
input. -/
theorem c3_delayed_stamping_witness :
    ([⟨14, 26, ⟨3, 0⟩⟩, ⟨30, 42, ⟨3, 0⟩⟩] : List ClsEntry).map
        (fun e => e.time_elapsed_cls) =
      stampsSpec false (sentinel_scan ⟨0, 0⟩ ⟨0, 0⟩ demoRecs) ∧
    (⟨3, 0⟩ : Timeval) = (sentinel_scan ⟨0, 0⟩ ⟨0, 0⟩ demoRecs).2 :=
  ⟨(c3_delayed_stamping demoRecs _ _ (by rfl)).1,
    (c3_delayed_stamping demoRecs _ _ (by rfl)).2.1⟩

/-! ## strstr semantics: a NUL hides later markers (C9) -/

theorem prefixOf_length_le {p l : List Nat} (h : p.isPrefixOf l = true) :
    p.length ≤ l.length := by
  induction p generalizing l with
  | nil => simp
  | cons a as ih =>
    cases l with
    | nil => simp [List.isPrefixOf] at h
    | cons b bs =>
      simp only [List.isPrefixOf, Bool.and_eq_true] at h
      simpa using ih h.2

theorem prefixOf_append {p l : List Nat} (t : List Nat)
    (h : p.isPrefixOf l = true) : p.isPrefixOf (l ++ t) = true := by
  induction p generalizing l with
  | nil => simp [List.isPrefixOf]
  | cons a as ih =>
    cases l with
    | nil => simp [List.isPrefixOf] at h
    | cons b bs =>
      simp only [List.isPrefixOf, Bool.and_eq_true, List.cons_append] at h ⊢
      exact ⟨h.1, ih h.2⟩

theorem cstr_decomp (l : List Nat) : ∃ t, cstr l ++ t = l := by
  induction l with
  | nil => exact ⟨[], rfl⟩
  | cons a as ih =>
    by_cases ha : a = 0
    · subst ha
      exact ⟨0 :: as, by simp [cstr]⟩
    · obtain ⟨t, ht⟩ := ih
      refine ⟨t, ?_⟩
      rw [show cstr (a :: as) = a :: cstr as from by
        simp [cstr, List.takeWhile_cons_of_pos, ha]]
      simpa [cstr] using congrArg (a :: ·) ht

theorem cstr_length_le_of_nul {l : List Nat} {n : Nat}
    (h : l.get? n = some 0) : (cstr l).length ≤ n := by
  induction l generalizing n with
  | nil => simp at h
  | cons a as ih =>
    cases n with
    | zero =>
      simp only [List.get?] at h
      have ha : a = 0 := by injection h
      subst ha
      simp [cstr]
    | succ m =>
      simp only [List.get?] at h
      by_cases ha : a = 0
      · subst ha
        simp [cstr]
      · rw [show cstr (a :: as) = a :: cstr as from by
          simp [cstr, List.takeWhile_cons_of_pos, ha]]
        simpa using Nat.succ_le_succ (ih h)

/-- C9: when a record's payload contains a NUL byte before every
occurrence of the clear-screen marker, the NUL-terminated `strstr` scan
finds nothing — so the indexer creates no clear-screen entry for the
record, even though the marker is present in the payload. -/
theorem c9_nul_hides_marker (st : IdxState) (r : RawRec) (n p : Nat)
    (hn : r.payload.get? n = some 0)
    (hp : clrscrMarker.isPrefixOf (r.payload.drop p) = true)
    (hall : ∀ q, q ≤ r.payload.length →
      clrscrMarker.isPrefixOf (r.payload.drop q) = true → n < q)
    (hlen : r.len ≤ 8192) :
    scanPayload r.payload = none ∧
    ∃ st1, index_step st r = Except.ok st1 ∧
      st1.pending = st.pending ∧ st1.finished = st.finished := by
  have hnone : scanPayload r.payload = none := by
    cases hsc : scanPayload r.payload with
    | none => rfl
    | some i =>
      exfalso
      unfold scanPayload strstr_pos at hsc
      have hpred := List.find?_some hsc
      have hmem := List.mem_of_find?_eq_some hsc
      have hi : i < (cstr r.payload).length := List.mem_range.1 hmem
      have hlen4 : clrscrMarker.length ≤ ((cstr r.payload).drop i).length :=
        prefixOf_length_le hpred
      rw [List.length_drop] at hlen4
      have hcl : (cstr r.payload).length ≤ n := cstr_length_le_of_nul hn
      obtain ⟨t, ht⟩ := cstr_decomp r.payload
      have hile : i ≤ (cstr r.payload).length := le_of_lt hi
      have hdrop : r.payload.drop i = (cstr r.payload).drop i ++ t := by
        conv_lhs => rw [← ht]
        exact List.drop_append_of_le_length hile
      have hocc : clrscrMarker.isPrefixOf (r.payload.drop i) = true := by
        rw [hdrop]
        exact prefixOf_append t hpred
      have hql : i ≤ r.payload.length := by
        have hlong := congrArg List.length ht
        simp only [List.length_append] at hlong
        omega
      have := hall i hql hocc
      have h4 : clrscrMarker.length = 4 := rfl
      omega
  refine ⟨hnone, ?_⟩
  have hnl : ¬ 8192 < r.len := by omega
  exact ⟨⟨st.pos + 12 + (r.len : Int), r.tv,
    timeval_add st.whence (timeval_sub r.tv
      (if st.prevTv.sec = 0 then r.tv else st.prevTv)),
    st.pending, st.finished⟩, by simp [index_step, hnl, hnone], rfl, rfl⟩

/-- Witness for C9 at a concrete record whose payload is
`1B 00 1B 5B 32 4A`: the marker occurs at offset 2 but a NUL sits at
offset 1. -/
theorem c9_nul_hides_marker_witness :
    scanPayload [27, 0, 27, 91, 50, 74] = none :=
  (c9_nul_hides_marker ⟨0, ⟨5, 0⟩, ⟨0, 0⟩, none, []⟩
    ⟨⟨6, 0⟩, 6, [27, 0, 27, 91, 50, 74]⟩ 1 2
    (by rfl) (by rfl) (by decide) (by decide)).1

/-! ## The zero-seconds sentinel (C10) -/

/-- C10: the indexer recognizes the first record of a file by the
sentinel `prev_header.tv.tv_sec == 0`; consequently, whenever the stored
previous timestamp has a zero seconds field (the previous record's
timestamp was `0 s`), processing the next record re-initializes
`prev_header` to the current header and adds a zero delta: the
cumulative elapsed time does not advance no matter how far apart the two
timestamps are, and the stored previous timestamp becomes the current
record's. -/
theorem c10_zero_sec_sentinel (st : IdxState) (r : RawRec)
    (hz : st.prevTv.sec = 0) (hw : WeakNormed st.whence)
    (hlen : r.len ≤ 8192) :
    ∃ st1, index_step st r = Except.ok st1 ∧
      st1.whence = st.whence ∧ st1.prevTv = r.tv := by
  have hnl : ¬ 8192 < r.len := by omega
  have hsub : timeval_sub r.tv r.tv = ⟨0, 0⟩ := by
    unfold timeval_sub
    simp
  have hadd : timeval_add st.whence ⟨0, 0⟩ = st.whence := by
    obtain ⟨hw1, hw2⟩ := hw
    unfold timeval_add
    rw [if_neg (by simp; omega)]
    simp
  cases hsc : scanPayload r.payload with
  | none =>
    exact ⟨⟨st.pos + 12 + (r.len : Int), r.tv, st.whence,
      st.pending, st.finished⟩,
      by simp [index_step, hnl, hz, hsc, hsub, hadd], rfl, rfl⟩
  | some p =>
    cases hpd : st.pending with
    | none =>
      exact ⟨⟨st.pos + 12 + (r.len : Int), r.tv, st.whence,
        some ⟨st.pos, st.pos + 12 + (p : Int)⟩, st.finished⟩,
        by simp [index_step, hnl, hz, hsc, hpd, hsub, hadd], rfl, rfl⟩
    | some pe =>
      exact ⟨⟨st.pos + 12 + (r.len : Int), r.tv, st.whence,
        some ⟨st.pos, st.pos + 12 + (p : Int)⟩,
        st.finished ++ [⟨pe.record_start, pe.position, st.whence⟩]⟩,
        by simp [index_step, hnl, hz, hsc, hpd, hsub, hadd], rfl, rfl⟩

/-- Witness for C10: the stored previous timestamp is `0 s`, the current
record is at `1000 s`, yet the cumulative time stays `7.0005 s`. -/
theorem c10_zero_sec_sentinel_witness :
    ∃ st1, index_step ⟨26, ⟨0, 0⟩, ⟨7, 500⟩, none, []⟩
        ⟨⟨1000, 0⟩, 3, [1, 2, 3]⟩ = Except.ok st1 ∧
      st1.whence = (⟨7, 500⟩ : Timeval) ∧ st1.prevTv = (⟨1000, 0⟩ : Timeval) :=
  c10_zero_sec_sentinel ⟨26, ⟨0, 0⟩, ⟨7, 500⟩, none, []⟩
    ⟨⟨1000, 0⟩, 3, [1, 2, 3]⟩ (by rfl) (by decide) (by decide)

/-! ## Payload size limits (C6) -/

/-- C6 counterexample: `ttyread` — the playback read path — accepts a
record whose header declares a 9000-byte payload, although 9000 exceeds
the 8192-byte limit; only the indexing pass enforces the limit. -/
theorem c6_ttyread_accepts_large :
    (ttyread bigRecord).isSome = true ∧
    (read_header bigRecord).map (fun pr => pr.1.len) = some 9000 ∧
    8192 < 9000 := by
  refine ⟨by rfl, by rfl, by decide⟩

/-- C6 (amended): the indexing pass fails exactly on payloads declared
longer than `BUFSIZE = 8192` and proceeds on all others, while `ttyread`
succeeds whenever a 12-byte header can be read, with no length check. -/
theorem c6_payload_bound (st : IdxState) (r : RawRec) (bytes : List Nat) :
    (8192 < r.len → index_step st r = Except.error ()) ∧
    (r.len ≤ 8192 → ∃ st1, index_step st r = Except.ok st1) ∧
    ((read_header bytes).isSome = true → (ttyread bytes).isSome = true) := by
  refine ⟨fun h => by simp [index_step, h], fun h => ?_, fun h => ?_⟩
  · have hnl : ¬ 8192 < r.len := by omega
    cases hsc : scanPayload r.payload with
    | none =>
      exact ⟨⟨st.pos + 12 + (r.len : Int), r.tv,
        timeval_add st.whence (timeval_sub r.tv
          (if st.prevTv.sec = 0 then r.tv else st.prevTv)),
        st.pending, st.finished⟩, by simp [index_step, hnl, hsc]⟩
    | some p =>
      cases hpd : st.pending with
      | none =>
        exact ⟨⟨st.pos + 12 + (r.len : Int), r.tv,
          timeval_add st.whence (timeval_sub r.tv
            (if st.prevTv.sec = 0 then r.tv else st.prevTv)),
          some ⟨st.pos, st.pos + 12 + (p : Int)⟩, st.finished⟩,
          by simp [index_step, hnl, hsc, hpd]⟩
      | some pe =>
        exact ⟨⟨st.pos + 12 + (r.len : Int), r.tv,
          timeval_add st.whence (timeval_sub r.tv
            (if st.prevTv.sec = 0 then r.tv else st.prevTv)),
          some ⟨st.pos, st.pos + 12 + (p : Int)⟩,
          st.finished ++ [⟨pe.record_start, pe.position,
            timeval_add st.whence (timeval_sub r.tv
              (if st.prevTv.sec = 0 then r.tv else st.prevTv))⟩]⟩,
          by simp [index_step, hnl, hsc, hpd]⟩
  · unfold ttyread
    cases hh : read_header bytes with
    | none => rw [hh] at h; exact absurd h (by simp)
    | some pr => simp

/-- Witness for C6's amended theorem: a 9000-byte declaration fails the
indexing pass, a 3-byte one passes. -/
theorem c6_payload_bound_witness :
    ((8192 : Nat) < 9000 →
      index_step ⟨0, ⟨0, 0⟩, ⟨0, 0⟩, none, []⟩ ⟨⟨9, 0⟩, 9000, []⟩ =
        Except.error ()) ∧
    ((3 : Nat) ≤ 8192 →
      ∃ st1, index_step ⟨0, ⟨0, 0⟩, ⟨0, 0⟩, none, []⟩ ⟨⟨9, 0⟩, 3, [1, 2, 3]⟩ =
        Except.ok st1) :=
  ⟨(c6_payload_bound ⟨0, ⟨0, 0⟩, ⟨0, 0⟩, none, []⟩ ⟨⟨9, 0⟩, 9000, []⟩ []).1,
    (c6_payload_bound ⟨0, ⟨0, 0⟩, ⟨0, 0⟩, none, []⟩ ⟨⟨9, 0⟩, 3, [1, 2, 3]⟩
      []).2.1⟩

/-! ## The fine seek phase of `ttyplay` (C2)

After `seek_index` repositions the stream to the chosen clear-screen
record, `ttyplay` replays records forward: the first record is emitted
unconditionally with a zero delta; before each later record it computes
`time_diff = cur.tv - prev.tv` and stops — emitting that one record —
as soon as `seek_target < time_elapsed + time_diff`.  In accepted
iterations `cur_pos` is refreshed to `ftell` after the record was read,
so at the stop `cur_pos` is the start of the overshooting record (the
last record the fine phase consumed from the stream), and the final
`fseek(fp, cur_pos)` restores exactly that position. -/

/-- A record as the fine phase sees it: timestamp and payload length
(the payload bytes are emitted unchanged and do not matter here). -/
structure FRec where
  tv : Timeval
  len : Nat
deriving DecidableEq, Repr

/-- Result of the fine phase: final `status.time_elapsed`, the records
written, the restored stream position, and whether the phase stopped on
an overshooting record (rather than at end of stream). -/
structure FineRes where
  elapsedF : Timeval
  emitted : List FRec
  restorePos : Int
  stopped : Bool
deriving DecidableEq, Repr

/-- The sub-clear-screen seek loop of `ttyplay` (lines 1706–1745):
`pos` is the stream position at the head of the unread list and `curPos`
the saved `cur_pos`; both equal the clear-screen record's start on
entry. -/
def fine_phase (T : Timeval) :
    List FRec → Timeval → Timeval → Bool → Int → Int → FineRes
  | [], elapsed, _prev, _first, curPos, _pos => ⟨elapsed, [], curPos, false⟩
  | r :: rest, elapsed, prev, first, curPos, pos =>
    let diff := if first then (⟨0, 0⟩ : Timeval) else timeval_diff prev r.tv
    if first = false ∧ (timeval_sub T (timeval_add elapsed diff)).sec < 0 then
      ⟨elapsed, [r], curPos, true⟩
    else
      let pos1 := pos + 12 + (r.len : Int)
      let res := fine_phase T rest (timeval_add elapsed diff) r.tv false pos1 pos1
      ⟨res.elapsedF, r :: res.emitted, res.restorePos, res.stopped⟩

/-- Entry into the fine phase: `first_loop = 1`, `cur_pos = ftell(fp)` at
the clear-screen record's start. -/
def fine_phase_run (T : Timeval) (records : List FRec) (elapsed0 : Timeval)
    (pos0 : Int) : FineRes :=
  fine_phase T records elapsed0 ⟨0, 0⟩ true pos0 pos0

/-- Total on-disk size of a list of records (12-byte header each). -/
def sizes (rs : List FRec) : Int := (rs.map (fun r => 12 + (r.len : Int))).sum

/-- The timestamp of the record before index `k`, with `prev` standing
in at `k = 0`. -/
def prevTvAt (rs : List FRec) (k : Nat) (prev : Timeval) : Timeval :=
  if k = 0 then prev else (rs.getD (k - 1) ⟨⟨0, 0⟩, 0⟩).tv

theorem fine_phase_aux (T : Timeval) (hT : Normed T) :
    ∀ (rs : List FRec) (elapsed prev : Timeval) (p : Int),
      (∀ r ∈ rs, Normed r.tv) → WeakNormed elapsed → Normed prev →
      tval elapsed ≤ tval T →
      (((fine_phase T rs elapsed prev false p p).stopped = true →
        ∃ (k : Nat) (rk : FRec), rs[k]? = some rk ∧
          (fine_phase T rs elapsed prev false p p).emitted = rs.take (k + 1) ∧
          (∀ (j : Nat) (rj : FRec), j < k → rs[j]? = some rj →
            tval elapsed + (tval rj.tv - tval prev) ≤ tval T) ∧
          tval T < tval elapsed + (tval rk.tv - tval prev) ∧
          tval (fine_phase T rs elapsed prev false p p).elapsedF =
            tval elapsed + (tval (prevTvAt rs k prev) - tval prev) ∧
          tval (fine_phase T rs elapsed prev false p p).elapsedF ≤ tval T ∧
          (fine_phase T rs elapsed prev false p p).restorePos =
            p + sizes (rs.take k)) ∧
      ((fine_phase T rs elapsed prev false p p).stopped = false →
        (fine_phase T rs elapsed prev false p p).emitted = rs ∧
        (∀ (j : Nat) (rj : FRec), rs[j]? = some rj →
          tval elapsed + (tval rj.tv - tval prev) ≤ tval T) ∧
        tval (fine_phase T rs elapsed prev false p p).elapsedF ≤ tval T)) := by
  intro rs
  induction rs with
  | nil =>
    intro elapsed prev p hmem hel hprev hle
    constructor
    · intro hst
      simp [fine_phase] at hst
    · intro _
      refine ⟨rfl, ?_, by simpa [fine_phase] using hle⟩
      intro j rj hj
      simp at hj
  | cons r rest ih =>
    intro elapsed prev p hmem hel hprev hle
    have hrtv : Normed r.tv := hmem r (by simp)
    have hdiff : Normed (timeval_diff prev r.tv) := normed_timeval_diff hprev hrtv
    have haddw : WeakNormed (timeval_add elapsed (timeval_diff prev r.tv)) :=
      weaknormed_timeval_add hel hdiff
    have hcondiff : (timeval_sub T (timeval_add elapsed
        (timeval_diff prev r.tv))).sec < 0 ↔
        tval T < tval elapsed + (tval r.tv - tval prev) := by
      rw [timeval_sub_sec_neg_iff hT haddw, tval_timeval_add,
        tval_timeval_diff]
    by_cases hcond : (timeval_sub T (timeval_add elapsed
        (timeval_diff prev r.tv))).sec < 0
    · -- overshoot on record r: stop, emit r, keep position p
      have hstep : fine_phase T (r :: rest) elapsed prev false p p =
          ⟨elapsed, [r], p, true⟩ := by
        simp [fine_phase, hcond]
      constructor
      · intro _
        refine ⟨0, r, by simp, by simp [hstep], ?_, ?_, ?_, ?_, ?_⟩
        · intro j rj hj
          omega
        · exact hcondiff.1 hcond
        · simp [hstep, prevTvAt]
        · simpa [hstep] using hle
        · simp [hstep, sizes]
      · intro hst
        rw [hstep] at hst
        simp at hst
    · -- record r accepted: advance elapsed, prev and positions
      have helap1 : tval (timeval_add elapsed (timeval_diff prev r.tv)) =
          tval elapsed + (tval r.tv - tval prev) := by
        rw [tval_timeval_add, tval_timeval_diff]
      have hle1 : tval (timeval_add elapsed (timeval_diff prev r.tv)) ≤
          tval T := by
        rw [helap1]
        have := hcondiff.not.1 hcond
        omega
      have hstep : fine_phase T (r :: rest) elapsed prev false p p =
          ⟨(fine_phase T rest (timeval_add elapsed (timeval_diff prev r.tv))
              r.tv false (p + 12 + (r.len : Int)) (p + 12 + (r.len : Int))).elapsedF,
            r :: (fine_phase T rest (timeval_add elapsed (timeval_diff prev r.tv))
              r.tv false (p + 12 + (r.len : Int)) (p + 12 + (r.len : Int))).emitted,
            (fine_phase T rest (timeval_add elapsed (timeval_diff prev r.tv))
              r.tv false (p + 12 + (r.len : Int)) (p + 12 + (r.len : Int))).restorePos,
            (fine_phase T rest (timeval_add elapsed (timeval_diff prev r.tv))
              r.tv false (p + 12 + (r.len : Int)) (p + 12 + (r.len : Int))).stopped⟩ := by
        simp [fine_phase, hcond]
      obtain ⟨ihstop, ihgo⟩ := ih (timeval_add elapsed (timeval_diff prev r.tv))
        r.tv (p + 12 + (r.len : Int)) (fun x hx => hmem x (by simp [hx]))
        haddw hrtv hle1
      constructor
      · intro hst
        rw [hstep] at hst
        simp only at hst
        obtain ⟨k, rk, hget, hemit, hbnd, hover, hefv, hef, hrp⟩ := ihstop hst
        refine ⟨k + 1, rk, by simpa using hget, ?_, ?_, ?_, ?_, ?_, ?_⟩
        · rw [hstep]
          simp [hemit]
        · intro j rj hj hgj
          cases j with
          | zero =>
            simp at hgj
            subst hgj
            have := hcondiff.not.1 hcond
            omega
          | succ j1 =>
            simp at hgj
            have := hbnd j1 rj (by omega) hgj
            omega
        · have := hover
          omega
        · rw [hstep]
          simp only
          rw [hefv, helap1]
          have hpa : prevTvAt (r :: rest) (k + 1) prev = prevTvAt rest k r.tv := by
            unfold prevTvAt
            cases k with
            | zero => simp
            | succ k1 => simp
          rw [hpa]
          omega
        · rw [hstep]
          simpa using hef
        · rw [hstep]
          simp only
          rw [hrp]
          simp [sizes]
          omega
      · intro hst
        rw [hstep] at hst
        simp only at hst
        obtain ⟨hemit, hbnd, hef⟩ := ihgo hst
        refine ⟨?_, ?_, ?_⟩
        · rw [hstep]
          simp [hemit]
        · intro j rj hgj
          cases j with
          | zero =>
            simp at hgj
            subst hgj
            have := hcondiff.not.1 hcond
            omega
          | succ j1 =>
            simp at hgj
            have := hbnd j1 rj hgj
            omega
        · rw [hstep]
          simpa using hef

/-- C2: during the fine phase that follows a coarse seek toward target
`T`, the engine computes `projected = elapsed + (record.tv - prev.tv)`
for every record after the first, stops at exactly the first record
whose projected time exceeds `T` and emits it (records strictly between
the first and the stopping one all project at or below `T`), leaves
`elapsed ≤ T` (one accepted delta short of the stop, so the screen is
current to at most one record past `T`), and restores the stream to the
start position of that last consumed (overshooting) record; when no
record overshoots, everything is emitted and `elapsed` stays at most
`T`. -/
theorem c2_fine_seek (T : Timeval) (r0 : FRec) (rest : List FRec)
    (elapsed0 : Timeval) (p0 : Int) (hT : Normed T)
    (hr : ∀ r ∈ r0 :: rest, Normed r.tv) (he : WeakNormed elapsed0)
    (hle : tval elapsed0 ≤ tval T) :
    ((fine_phase_run T (r0 :: rest) elapsed0 p0).stopped = true →
      ∃ (k : Nat) (rk : FRec), 1 ≤ k ∧ (r0 :: rest)[k]? = some rk ∧
        (fine_phase_run T (r0 :: rest) elapsed0 p0).emitted =
          (r0 :: rest).take (k + 1) ∧
        (∀ (j : Nat) (rj : FRec), 1 ≤ j → j < k →
          (r0 :: rest)[j]? = some rj →
          tval elapsed0 + (tval rj.tv - tval r0.tv) ≤ tval T) ∧
        tval T < tval elapsed0 + (tval rk.tv - tval r0.tv) ∧
        tval (fine_phase_run T (r0 :: rest) elapsed0 p0).elapsedF ≤ tval T ∧
        tval (fine_phase_run T (r0 :: rest) elapsed0 p0).elapsedF =
          tval elapsed0 +
            (tval (((r0 :: rest).getD (k - 1) ⟨⟨0, 0⟩, 0⟩).tv) -
              tval r0.tv) ∧
        (fine_phase_run T (r0 :: rest) elapsed0 p0).restorePos =
          p0 + sizes ((r0 :: rest).take k)) ∧
    ((fine_phase_run T (r0 :: rest) elapsed0 p0).stopped = false →
      (fine_phase_run T (r0 :: rest) elapsed0 p0).emitted = r0 :: rest ∧
      (∀ (j : Nat) (rj : FRec), (r0 :: rest)[j]? = some rj →
        tval elapsed0 + (tval rj.tv - tval r0.tv) ≤ tval T) ∧
      tval (fine_phase_run T (r0 :: rest) elapsed0 p0).elapsedF ≤ tval T) := by
  have hr0 : Normed r0.tv := hr r0 (by simp)
  have hz : Normed (⟨0, 0⟩ : Timeval) := by decide
  have hel1 : WeakNormed (timeval_add elapsed0 ⟨0, 0⟩) :=
    weaknormed_timeval_add he hz
  have hv1 : tval (timeval_add elapsed0 ⟨0, 0⟩) = tval elapsed0 := by
    rw [tval_timeval_add]
    simp [tval]
  have hrun : fine_phase_run T (r0 :: rest) elapsed0 p0 =
      ⟨(fine_phase T rest (timeval_add elapsed0 ⟨0, 0⟩) r0.tv false
          (p0 + 12 + (r0.len : Int)) (p0 + 12 + (r0.len : Int))).elapsedF,
        r0 :: (fine_phase T rest (timeval_add elapsed0 ⟨0, 0⟩) r0.tv false
          (p0 + 12 + (r0.len : Int)) (p0 + 12 + (r0.len : Int))).emitted,
        (fine_phase T rest (timeval_add elapsed0 ⟨0, 0⟩) r0.tv false
          (p0 + 12 + (r0.len : Int)) (p0 + 12 + (r0.len : Int))).restorePos,
        (fine_phase T rest (timeval_add elapsed0 ⟨0, 0⟩) r0.tv false
          (p0 + 12 + (r0.len : Int)) (p0 + 12 + (r0.len : Int))).stopped⟩ := by
    simp [fine_phase_run, fine_phase]
  obtain ⟨auxstop, auxgo⟩ := fine_phase_aux T hT rest
    (timeval_add elapsed0 ⟨0, 0⟩) r0.tv (p0 + 12 + (r0.len : Int))
    (fun x hx => hr x (by simp [hx])) hel1 hr0 (by omega)
  constructor
  · intro hst
    rw [hrun] at hst
    simp only at hst
    obtain ⟨k1, rk, hget, hemit, hbnd, hover, hefv, hef, hrp⟩ := auxstop hst
    refine ⟨k1 + 1, rk, by omega, by simpa using hget, ?_, ?_, ?_, ?_, ?_, ?_⟩
    · rw [hrun]
      simp [hemit]
    · intro j rj hj1 hjk hgj
      cases j with
      | zero => omega
      | succ j1 =>
        simp only [List.getElem?_cons_succ] at hgj
        have := hbnd j1 rj (by omega) hgj
        omega
    · omega
    · rw [hrun]
      simpa using hef
    · rw [hrun]
      simp only
      rw [hefv, hv1]
      have hpa : prevTvAt rest k1 r0.tv =
          ((r0 :: rest).getD (k1 + 1 - 1) ⟨⟨0, 0⟩, 0⟩).tv := by
        unfold prevTvAt
        cases k1 with
        | zero => simp
        | succ k2 => simp
      rw [hpa]
    · rw [hrun]
      simp only
      rw [hrp]
      simp [sizes]
      omega
  · intro hst
    rw [hrun] at hst
    simp only at hst
    obtain ⟨hemit, hbnd, hef⟩ := auxgo hst
    refine ⟨?_, ?_, ?_⟩
    · rw [hrun]
      simp [hemit]
    · intro j rj hgj
      cases j with
      | zero =>
        simp only [List.getElem?_cons_zero, Option.some.injEq] at hgj
        subst hgj
        omega
      | succ j1 =>
        simp only [List.getElem?_cons_succ] at hgj
        have := hbnd j1 rj hgj
        omega
    · rw [hrun]
      simpa using hef

/-- Witness for C2 at a concrete three-record seek: target elapsed 2 s,
records at 100 s, 101 s and 105 s; the fine phase accepts the second
record (projected 1 s), stops on the third (projected 5 s), and the
result satisfies all the claim's properties. -/
theorem c2_fine_seek_witness :
    ∃ (k : Nat) (rk : FRec), 1 ≤ k ∧
      ([⟨⟨100, 0⟩, 3⟩, ⟨⟨101, 0⟩, 4⟩, ⟨⟨105, 0⟩, 5⟩] : List FRec)[k]? =
        some rk ∧
      (fine_phase_run ⟨2, 0⟩ [⟨⟨100, 0⟩, 3⟩, ⟨⟨101, 0⟩, 4⟩, ⟨⟨105, 0⟩, 5⟩]
        ⟨0, 0⟩ 1000).emitted =
        ([⟨⟨100, 0⟩, 3⟩, ⟨⟨101, 0⟩, 4⟩, ⟨⟨105, 0⟩, 5⟩] : List FRec).take
          (k + 1) ∧
      (∀ (j : Nat) (rj : FRec), 1 ≤ j → j < k →
        ([⟨⟨100, 0⟩, 3⟩, ⟨⟨101, 0⟩, 4⟩, ⟨⟨105, 0⟩, 5⟩] : List FRec)[j]? =
          some rj →
        tval ⟨0, 0⟩ + (tval rj.tv - tval ⟨100, 0⟩) ≤ tval ⟨2, 0⟩) ∧
      tval ⟨2, 0⟩ < tval ⟨0, 0⟩ + (tval rk.tv - tval ⟨100, 0⟩) ∧
      tval (fine_phase_run ⟨2, 0⟩
        [⟨⟨100, 0⟩, 3⟩, ⟨⟨101, 0⟩, 4⟩, ⟨⟨105, 0⟩, 5⟩] ⟨0, 0⟩ 1000).elapsedF ≤
        tval ⟨2, 0⟩ ∧
      tval (fine_phase_run ⟨2, 0⟩
        [⟨⟨100, 0⟩, 3⟩, ⟨⟨101, 0⟩, 4⟩, ⟨⟨105, 0⟩, 5⟩] ⟨0, 0⟩ 1000).elapsedF =
        tval ⟨0, 0⟩ +
          (tval ((([⟨⟨100, 0⟩, 3⟩, ⟨⟨101, 0⟩, 4⟩, ⟨⟨105, 0⟩, 5⟩] :
            List FRec).getD (k - 1) ⟨⟨0, 0⟩, 0⟩).tv) - tval ⟨100, 0⟩) ∧
      (fine_phase_run ⟨2, 0⟩ [⟨⟨100, 0⟩, 3⟩, ⟨⟨101, 0⟩, 4⟩, ⟨⟨105, 0⟩, 5⟩]
        ⟨0, 0⟩ 1000).restorePos =
        1000 + sizes (([⟨⟨100, 0⟩, 3⟩, ⟨⟨101, 0⟩, 4⟩, ⟨⟨105, 0⟩, 5⟩] :
          List FRec).take k) :=
  (c2_fine_seek ⟨2, 0⟩ ⟨⟨100, 0⟩, 3⟩ [⟨⟨101, 0⟩, 4⟩, ⟨⟨105, 0⟩, 5⟩] ⟨0, 0⟩
    1000 (by decide) (by decide) (by decide) (by decide)).1 (by rfl)

/-! ## Coarse seek (C1)

Two generations of the coarse seek exist: `seek_index` (line 1324) walks
the single global clear-screen chain and stops at the first entry whose
stored time satisfies `timeval_diff(time_elapsed_cls, target).tv_sec <= 0`
— a whole-seconds comparison — while `seek_file_index` (line 2448) first
walks the file chain (`while diff(file_end, T).tv_sec >= 0`), then the
chosen file's entry chain (`while diff(stored, T).tv_sec >= 0`),
tracking `when_we_are` as the stored time last passed.

An index entry here carries, besides the stored `time_elapsed_cls`
(which the indexer sets to the cumulative time of the NEXT entry's
record, or the end-of-file time for a file's last entry), the ghost
field `elapsedAt`: the specification's `elapsed_at_entry`, i.e. the
cumulative elapsed time at the entry's own record. -/

/-- A clear-screen entry as the seek engines see it. -/
structure Entry where
  recordStart : Int
  elapsedAt : Timeval
  stored : Timeval
deriving DecidableEq, Repr

/-- A file of the navigation index: its `time_elapsed_file` (cumulative
elapsed at end of file) and its clear-screen entries in order. -/
structure FileIdx where
  fileEnd : Timeval
  entries : List Entry
deriving DecidableEq, Repr

/-- The function `seek_index` (the 1324 variant): walk the global chain from the
first entry; break at the first entry with
`timeval_diff(time_elapsed_cls, seek_target).tv_sec <= 0`, or at the
final entry. -/
def seek_index : Timeval → Entry → List Entry → Entry
  | T, cur, rest =>
    if (timeval_diff cur.stored T).sec ≤ 0 then cur
    else
      match rest with
      | [] => cur
      | n :: rs => seek_index T n rs

/-- The file-walking loop of `seek_file_index`:
`while (timeval_diff(file_end, target).tv_sec >= 0 && next) { when = file_end; advance }`. -/
def find_file : Timeval → Timeval → FileIdx → List FileIdx → FileIdx × Timeval
  | T, when, cur, rest =>
    if 0 ≤ (timeval_diff cur.fileEnd T).sec then
      match rest with
      | [] => (cur, when)
      | n :: rs => find_file T cur.fileEnd n rs
    else (cur, when)

/-- The entry-walking loop of `seek_file_index`:
`while (timeval_diff(time_elapsed_cls, target).tv_sec >= 0 && next) { when = time_elapsed_cls; advance }`. -/
def find_entry : Timeval → Timeval → Entry → List Entry → Entry × Timeval
  | T, when, cur, rest =>
    if 0 ≤ (timeval_diff cur.stored T).sec then
      match rest with
      | [] => (cur, when)
      | n :: rs => find_entry T cur.stored n rs
    else (cur, when)

/-- Result of `seek_file_index`: the chosen entry, the `when_we_are`
time written to `status.time_elapsed`, and the stream position set by
`fseek(status.fp, cur_clrscr->record_start, SEEK_SET)`. -/
structure SeekRes where
  entry : Entry
  whenAt : Timeval
  position : Int
deriving DecidableEq, Repr

/-- The function `seek_file_index` (the 2448 variant), for an index whose head is the
first file (so the initial `when_we_are` is zero): find the file, then
the entry, then update the status. -/
def seek_file_index (files : List FileIdx) (T : Timeval) : Option SeekRes :=
  match files with
  | [] => none
  | f :: fs =>
    let fw := find_file T ⟨0, 0⟩ f fs
    match h : fw.1.entries with
    | [] => none
    | e :: es =>
      let ew := find_entry T fw.2 e es
      some ⟨ew.1, ew.2, ew.1.recordStart⟩

/-- Well-formedness of a file's entry chain produced by the indexer,
relative to a lower bound `lb` on elapsed times (the end of the previous
file) and the file's end time `fend`: elapsed times are normalized and
non-decreasing from `lb`, each entry's stored time is the next entry's
elapsed time, and the last entry's stored time is the file end. -/
def entriesWF (lb : Int) (fend : Timeval) : List Entry → Prop
  | [] => True
  | [e] => Normed e.elapsedAt ∧ lb ≤ tval e.elapsedAt ∧
      tval e.elapsedAt ≤ tval fend ∧ e.stored = fend
  | e :: e2 :: es => Normed e.elapsedAt ∧ lb ≤ tval e.elapsedAt ∧
      e.stored = e2.elapsedAt ∧ entriesWF (tval e.elapsedAt) fend (e2 :: es)

/-- Well-formedness of the file chain: each file has a normalized end
time not before the previous file's end, a nonempty well-formed entry
chain, and the lower bound advances to the file's end. -/
def filesWF (lb : Int) : List FileIdx → Prop
  | [] => True
  | f :: fs => Normed f.fileEnd ∧ f.entries ≠ [] ∧
      entriesWF lb f.fileEnd f.entries ∧ lb ≤ tval f.fileEnd ∧
      filesWF (tval f.fileEnd) fs

theorem entriesWF_lb_le {fend : Timeval} :
    ∀ (es : List Entry) (lb : Int), entriesWF lb fend es →
      ∀ x ∈ es, lb ≤ tval x.elapsedAt := by
  intro es
  induction es with
  | nil =>
    intro lb h x hx
    simp at hx
  | cons e es ih =>
    intro lb h x hx
    cases es with
    | nil =>
      simp only [entriesWF] at h
      simp only [List.mem_singleton] at hx
      subst hx
      exact h.2.1
    | cons e2 rs =>
      simp only [entriesWF] at h
      rcases List.mem_cons.1 hx with hx | hx
      · subst hx
        exact h.2.1
      · have h3 := ih (tval e.elapsedAt) h.2.2.2 x hx
        have h4 := h.2.1
        omega

theorem entriesWF_le_end {fend : Timeval} :
    ∀ (es : List Entry) (lb : Int), entriesWF lb fend es →
      ∀ x ∈ es, tval x.elapsedAt ≤ tval fend := by
  intro es
  induction es with
  | nil =>
    intro lb h x hx
    simp at hx
  | cons e es ih =>
    intro lb h x hx
    cases es with
    | nil =>
      simp only [entriesWF] at h
      simp only [List.mem_singleton] at hx
      subst hx
      exact h.2.2.1
    | cons e2 rs =>
      simp only [entriesWF] at h
      rcases List.mem_cons.1 hx with hx | hx
      · subst hx
        have h3 := entriesWF_lb_le (e2 :: rs) (tval x.elapsedAt) h.2.2.2 e2
          (by simp)
        have h4 := ih (tval x.elapsedAt) h.2.2.2 e2 (by simp)
        omega
      · exact ih (tval e.elapsedAt) h.2.2.2 x hx

theorem filesWF_lb_le_entries :
    ∀ (fs : List FileIdx) (lb : Int), filesWF lb fs →
      ∀ f ∈ fs, ∀ x ∈ f.entries, lb ≤ tval x.elapsedAt := by
  intro fs
  induction fs with
  | nil =>
    intro lb h f hf
    simp at hf
  | cons g gs ih =>
    intro lb h f hf x hx
    simp only [filesWF] at h
    rcases List.mem_cons.1 hf with hf | hf
    · subst hf
      exact entriesWF_lb_le f.entries lb h.2.2.1 x hx
    · have h3 := ih (tval g.fileEnd) h.2.2.2.2 f hf x hx
      have h4 := h.2.2.2.1
      omega

theorem find_entry_spec (T : Timeval) (hT : Normed T) {fend : Timeval}
    (hfend : Normed fend) :
    ∀ (es : List Entry) (cur : Entry) (when : Timeval) (lb : Int),
      entriesWF lb fend (cur :: es) →
      tval cur.elapsedAt ≤ tval T → tval when ≤ tval T →
      tval (find_entry T when cur es).1.elapsedAt ≤ tval T ∧
      tval (find_entry T when cur es).2 ≤ tval T ∧
      (∀ x ∈ cur :: es, tval x.elapsedAt ≤ tval T →
        tval x.elapsedAt ≤ tval (find_entry T when cur es).1.elapsedAt) ∧
      (find_entry T when cur es).1 ∈ cur :: es := by
  intro es
  induction es with
  | nil =>
    intro cur when lb hwf hcur hwhen
    have hres : find_entry T when cur [] = (cur, when) := by
      show (if 0 ≤ (timeval_diff cur.stored T).sec then (cur, when)
        else (cur, when)) = (cur, when)
      split <;> rfl
    rw [hres]
    refine ⟨hcur, hwhen, ?_, by simp⟩
    intro x hx hxT
    simp only [List.mem_singleton] at hx
    subst hx
    simp only
    omega
  | cons n rs ih =>
    intro cur when lb hwf hcur hwhen
    simp only [entriesWF] at hwf
    obtain ⟨hcN, hclb, hcst, hwf2⟩ := hwf
    have hnN : Normed n.elapsedAt := by
      cases rs with
      | nil => exact hwf2.1
      | cons m ms => exact hwf2.1
    have hstN : Normed cur.stored := by
      rw [hcst]; exact hnN
    have hcond : (0 ≤ (timeval_diff cur.stored T).sec) ↔
        tval cur.stored ≤ tval T := timeval_diff_sec_nonneg_iff hstN hT
    by_cases hc : 0 ≤ (timeval_diff cur.stored T).sec
    · -- stored ≤ T: advance to the next entry
      have hstep : find_entry T when cur (n :: rs) =
          find_entry T cur.stored n rs := by
        show (if 0 ≤ (timeval_diff cur.stored T).sec then
            find_entry T cur.stored n rs else (cur, when)) =
          find_entry T cur.stored n rs
        rw [if_pos hc]
      have hsT : tval cur.stored ≤ tval T := hcond.1 hc
      have hnT : tval n.elapsedAt ≤ tval T := by rw [← hcst]; exact hsT
      have hwT : tval cur.stored ≤ tval T := hsT
      obtain ⟨ih1, ih2, ih3, ih4⟩ := ih n cur.stored (tval cur.elapsedAt)
        hwf2 hnT hwT
      rw [hstep]
      refine ⟨ih1, ih2, ?_, by simp [ih4]⟩
      intro x hx hxT
      rcases List.mem_cons.1 hx with hx | hx
      · subst hx
        have hxn : tval x.elapsedAt ≤ tval n.elapsedAt := by
          have := entriesWF_lb_le (n :: rs) (tval x.elapsedAt) hwf2 n (by simp)
          omega
        have := ih3 n (by simp) hnT
        omega
      · exact ih3 x hx hxT
    · -- T < stored: stop here
      have hstep : find_entry T when cur (n :: rs) = (cur, when) := by
        show (if 0 ≤ (timeval_diff cur.stored T).sec then
            find_entry T cur.stored n rs else (cur, when)) = (cur, when)
        rw [if_neg hc]
      have hsT : tval T < tval cur.stored := by
        have := hcond.not.1 hc
        omega
      rw [hstep]
      refine ⟨hcur, hwhen, ?_, by simp⟩
      intro x hx hxT
      rcases List.mem_cons.1 hx with hx | hx
      · subst hx
        simp only
        omega
      · exfalso
        have hxge : tval n.elapsedAt ≤ tval x.elapsedAt := by
          rcases List.mem_cons.1 hx with hx2 | hx2
          · subst hx2; omega
          · cases rs with
            | nil => simp at hx2
            | cons m ms =>
              simp only [entriesWF] at hwf2
              have := entriesWF_lb_le (m :: ms) (tval n.elapsedAt)
                hwf2.2.2.2 x hx2
              omega
        rw [← hcst] at hxge
        omega

theorem find_file_spec (T : Timeval) (hT : Normed T) :
    ∀ (fs : List FileIdx) (cur : FileIdx) (when : Timeval) (lb : Int),
      filesWF lb (cur :: fs) → tval when ≤ tval T →
      ∃ lbstar,
        tval (find_file T when cur fs).2 ≤ tval T ∧
        (find_file T when cur fs).1 ∈ cur :: fs ∧
        Normed (find_file T when cur fs).1.fileEnd ∧
        (find_file T when cur fs).1.entries ≠ [] ∧
        entriesWF lbstar (find_file T when cur fs).1.fileEnd
          (find_file T when cur fs).1.entries ∧
        lb ≤ lbstar ∧
        (∀ g ∈ cur :: fs, ∀ x ∈ g.entries, tval x.elapsedAt ≤ tval T →
          (tval x.elapsedAt ≤ lbstar ∨ x ∈ (find_file T when cur fs).1.entries)) := by
  intro fs
  induction fs with
  | nil =>
    intro cur when lb hwf hwhen
    simp only [filesWF] at hwf
    have hres : find_file T when cur [] = (cur, when) := by
      show (if 0 ≤ (timeval_diff cur.fileEnd T).sec then (cur, when)
        else (cur, when)) = (cur, when)
      split <;> rfl
    rw [hres]
    refine ⟨lb, hwhen, by simp, hwf.1, hwf.2.1, hwf.2.2.1, le_refl lb, ?_⟩
    intro g hg x hx hxT
    simp only [List.mem_singleton] at hg
    subst hg
    exact Or.inr hx
  | cons f2 rs ih =>
    intro cur when lb hwf hwhen
    simp only [filesWF] at hwf
    obtain ⟨hcN, hcne, hcwf, hclb, hwf2⟩ := hwf
    have hcond : (0 ≤ (timeval_diff cur.fileEnd T).sec) ↔
        tval cur.fileEnd ≤ tval T := timeval_diff_sec_nonneg_iff hcN hT
    by_cases hc : 0 ≤ (timeval_diff cur.fileEnd T).sec
    · -- T at or past this file's end: advance
      have hstep : find_file T when cur (f2 :: rs) =
          find_file T cur.fileEnd f2 rs := by
        show (if 0 ≤ (timeval_diff cur.fileEnd T).sec then
            find_file T cur.fileEnd f2 rs else (cur, when)) =
          find_file T cur.fileEnd f2 rs
        rw [if_pos hc]
      have hET : tval cur.fileEnd ≤ tval T := hcond.1 hc
      obtain ⟨lbstar, ih1, ih2, ih3, ih4, ih5, ih6, ih7⟩ :=
        ih f2 cur.fileEnd (tval cur.fileEnd) hwf2 hET
      rw [hstep]
      refine ⟨lbstar, ih1, by simp [ih2], ih3, ih4, ih5, by omega, ?_⟩
      intro g hg x hx hxT
      rcases List.mem_cons.1 hg with hg | hg
      · subst hg
        left
        have := entriesWF_le_end g.entries lb hcwf x hx
        omega
      · exact ih7 g hg x hx hxT
    · -- T strictly before this file's end: stop here
      have hstep : find_file T when cur (f2 :: rs) = (cur, when) := by
        show (if 0 ≤ (timeval_diff cur.fileEnd T).sec then
            find_file T cur.fileEnd f2 rs else (cur, when)) = (cur, when)
        rw [if_neg hc]
      have hET : tval T < tval cur.fileEnd := by
        have := hcond.not.1 hc
        omega
      rw [hstep]
      refine ⟨lb, hwhen, by simp, hcN, hcne, hcwf, le_refl lb, ?_⟩
      intro g hg x hx hxT
      rcases List.mem_cons.1 hg with hg | hg
      · subst hg
        exact Or.inr hx
      · exfalso
        have := filesWF_lb_le_entries (f2 :: rs) (tval cur.fileEnd) hwf2 g hg x hx
        omega

/-- C1 counterexample: a chain of two entries whose `elapsed_at_entry`
values are 0 s and 5 s — stored `time_elapsed_cls` 5 s and 10 s, exactly
as the indexer writes them — and a coarse `seek_index` to target 5 s:
the walk stops at the FIRST entry (`elapsed_at_entry` 0 s), although the
second entry satisfies `elapsed_at_entry = 5 s ≤ T` and is larger,
because `seek_index` compares only the whole-seconds part of the stored
times. -/
theorem c1_seek_index_undershoots :
    seek_index ⟨5, 0⟩ ⟨0, ⟨0, 0⟩, ⟨5, 0⟩⟩ [⟨14, ⟨5, 0⟩, ⟨10, 0⟩⟩] =
      ⟨0, ⟨0, 0⟩, ⟨5, 0⟩⟩ ∧
    tval ((⟨14, ⟨5, 0⟩, ⟨10, 0⟩⟩ : Entry).elapsedAt) ≤
      tval (⟨5, 0⟩ : Timeval) ∧
    tval ((seek_index ⟨5, 0⟩ ⟨0, ⟨0, 0⟩, ⟨5, 0⟩⟩
        [⟨14, ⟨5, 0⟩, ⟨10, 0⟩⟩]).elapsedAt) <
      tval ((⟨14, ⟨5, 0⟩, ⟨10, 0⟩⟩ : Entry).elapsedAt) := by
  refine ⟨by rfl, by decide, by decide⟩

/-- C1 (amended): on a well-formed index, `seek_file_index` — provided
the target does not fall in the gap before the first clear-screen of the
file it lands in — repositions to the entry whose `elapsed_at_entry` is
the largest among all entries with `elapsed_at_entry ≤ T` (first entry
if `T` precedes all, final entry if past all), sets the stream position
to that entry's `record_start`, and leaves `status.time_elapsed ≤ T`. -/
theorem c1_seek_file_index_lands_latest (f : FileIdx) (fs : List FileIdx)
    (T : Timeval) (hT : Normed T) (hT0 : 0 ≤ tval T)
    (hwf : filesWF 0 (f :: fs)) (e : Entry) (es : List Entry)
    (hch : (find_file T ⟨0, 0⟩ f fs).1.entries = e :: es)
    (hfirst : tval e.elapsedAt ≤ tval T) :
    ∃ res, seek_file_index (f :: fs) T = some res ∧
      res.position = res.entry.recordStart ∧
      tval res.entry.elapsedAt ≤ tval T ∧
      tval res.whenAt ≤ tval T ∧
      ∀ g ∈ f :: fs, ∀ x ∈ g.entries, tval x.elapsedAt ≤ tval T →
        tval x.elapsedAt ≤ tval res.entry.elapsedAt := by
  obtain ⟨lbstar, hw1, hw2, hw3, hw4, hw5, hw6, hw7⟩ :=
    find_file_spec T hT fs f ⟨0, 0⟩ 0 hwf (by simpa [tval] using hT0)
  rw [hch] at hw5
  obtain ⟨he1, he2, he3, he4⟩ := find_entry_spec T hT hw3 es e
    (find_file T ⟨0, 0⟩ f fs).2 lbstar hw5 hfirst hw1
  refine ⟨⟨(find_entry T (find_file T ⟨0, 0⟩ f fs).2 e es).1,
    (find_entry T (find_file T ⟨0, 0⟩ f fs).2 e es).2,
    (find_entry T (find_file T ⟨0, 0⟩ f fs).2 e es).1.recordStart⟩,
    ?_, rfl, he1, he2, ?_⟩
  · unfold seek_file_index
    simp only
    split
    · rename_i heq
      rw [heq] at hch
      simp at hch
    · rename_i e1 es1 heq
      rw [heq] at hch
      injection hch with hch1 hch2
      subst hch1
      subst hch2
      rfl
  · intro g hg x hx hxT
    rcases hw7 g hg x hx hxT with hcase | hcase
    · have hlbe : lbstar ≤ tval e.elapsedAt :=
        entriesWF_lb_le (e :: es) lbstar hw5 e (by simp)
      have := he3 e (by simp) hfirst
      dsimp only
      omega
    · rw [hch] at hcase
      exact he3 x hcase hxT

/-- Witness for C1's amended theorem on a concrete two-file index: file
one ends at 10 s with entries at elapsed 0 s and 5 s, file two ends at
30 s with an entry at 20 s; seeking to 7 s lands on the 5 s entry. -/
theorem c1_seek_file_index_witness :
    ∃ res, seek_file_index
        [⟨⟨10, 0⟩, [⟨0, ⟨0, 0⟩, ⟨5, 0⟩⟩, ⟨14, ⟨5, 0⟩, ⟨10, 0⟩⟩]⟩,
         ⟨⟨30, 0⟩, [⟨0, ⟨20, 0⟩, ⟨30, 0⟩⟩]⟩] ⟨7, 0⟩ = some res ∧
      res.position = res.entry.recordStart ∧
      tval res.entry.elapsedAt ≤ tval ⟨7, 0⟩ ∧
      tval res.whenAt ≤ tval ⟨7, 0⟩ ∧
      ∀ g ∈ [(⟨⟨10, 0⟩, [⟨0, ⟨0, 0⟩, ⟨5, 0⟩⟩, ⟨14, ⟨5, 0⟩, ⟨10, 0⟩⟩]⟩ :
          FileIdx), ⟨⟨30, 0⟩, [⟨0, ⟨20, 0⟩, ⟨30, 0⟩⟩]⟩],
        ∀ x ∈ g.entries, tval x.elapsedAt ≤ tval ⟨7, 0⟩ →
          tval x.elapsedAt ≤ tval res.entry.elapsedAt :=
  c1_seek_file_index_lands_latest
    ⟨⟨10, 0⟩, [⟨0, ⟨0, 0⟩, ⟨5, 0⟩⟩, ⟨14, ⟨5, 0⟩, ⟨10, 0⟩⟩]⟩
    [⟨⟨30, 0⟩, [⟨0, ⟨20, 0⟩, ⟨30, 0⟩⟩]⟩] ⟨7, 0⟩ (by decide) (by decide)
    (by simp [filesWF, entriesWF, Normed, tval])
    ⟨0, ⟨0, 0⟩, ⟨5, 0⟩⟩ [⟨14, ⟨5, 0⟩, ⟨10, 0⟩⟩] (by rfl) (by decide)

end Ttyplay2
